import Mathlib

/-!
Verification of the `storable` encoder (storable.go), a writer of the legacy
perl Storable binary format.  The Go source is shallowly embedded here:

* Go byte output is modelled as `List Nat`, each element a byte value below
  256 (the `uint8`/`uint32` conversions of the source appear as explicit
  `% 256` / big-endian byte extraction).
* Go strings (field names, string scalars, struct tags) are modelled as their
  raw byte sequences, `List Nat`.
* `reflect.Value` is modelled by the inductive `Value` below, one constructor
  per kind group that `marshalValue` distinguishes.  The constructor `vother`
  stands for a value of any kind with no case in the dispatch switch
  (map, func, chan, interface, complex, ...).  The untyped nil interface,
  for which `reflect.ValueOf` yields the zero `reflect.Value`, is modelled as
  the `none` input of `marshal`: on it `value.Type()` panics, so `marshal`
  does not return; `Option.none` models that panic outcome.  Nested values
  reached by the walk (struct fields, slice elements, pointees) are always
  typed, hence always a `Value`.
* `bytes.Buffer` writes never fail, so the error results of the Go functions
  are always nil; the only abnormal outcome is a run-time panic
  (`reflect.Value.Type` on the zero value, or `reflect.Value.Len` on a kind
  without a length).  All encoding functions therefore return
  `Option (List Nat)`: `some bs` is a normal return having written `bs`,
  `none` is a panic.
-/

namespace Storable

/-- Constants of storable.go lines 73-83. -/
def MAGIC : Nat := 0x5

/-- Format version byte (storable.go line 75). -/
def VERSION : Nat := 0x7

/-- Tag: array forthcoming (size, item list). -/
def SX_ARRAY : Nat := 0x2

/-- Tag: hash forthcoming (size, key/value pair list). -/
def SX_HASH : Nat := 0x3

/-- Tag: reference to object forthcoming. -/
def SX_REF : Nat := 0x4

/-- Tag: undefined scalar (declared, never emitted). -/
def SX_UNDEF : Nat := 0x5

/-- Tag: scalar (binary, small) follows (length, data). -/
def SX_SCALAR : Nat := 0xa

/-- Tag: UTF-8 string forthcoming (declared, never emitted). -/
def SX_UTF8STR : Nat := 0x17

/-- Models `binary.Write(e, binary.BigEndian, uint32(n))`: the Go `int`
is converted to `uint32` (truncation mod 2^32) and written as four
big-endian bytes.  Each byte is extracted with division and `% 256`;
this agrees with the truncating conversion because
`n % 2^32 / 2^24 = n / 2^24 % 256` and so on for the lower bytes. -/
def u32be (n : Nat) : List Nat :=
  [n / 2 ^ 24 % 256, n / 2 ^ 16 % 256, n / 2 ^ 8 % 256, n % 256]

/-- Models `strconv.FormatUint(n, 10)` (Go standard library, external to the
repository): the canonical base-10 digits of `n`, as ASCII byte values. -/
def natDecimal (n : Nat) : List Nat := (Nat.toDigits 10 n).map Char.toNat

/-- Models `strconv.FormatInt(i, 10)` (Go standard library, external to the
repository): ASCII byte 45 is the minus sign, emitted only for negative
values, followed by the canonical base-10 digits of the absolute value. -/
def intDecimal (i : Int) : List Nat :=
  if i < 0 then 45 :: natDecimal i.natAbs else natDecimal i.toNat

/-- Models a Go `reflect.Value` as far as `marshalValue` distinguishes them.
`vfloat` carries the textual form already produced by
`strconv.FormatFloat(f, 103, -1, bits)` (shortest round-trip general
notation; the formatter is Go standard library, external to the repository,
so the text travels with the value).  `vstruct` fields are
(name bytes, exported flag, storable tag bytes, field value) in declaration
order; the exported flag mirrors `reflect.StructField.PkgPath == ""`.
`vother` is any value of a kind with no case in the dispatch switch. -/
inductive Value : Type where
  | vbool : Bool → Value
  | vint : Int → Value
  | vuint : Nat → Value
  | vfloat : List Nat → Value
  | vstr : List Nat → Value
  | vslice : List Value → Value
  | vstruct : List (List Nat × Bool × List Nat × Value) → Value
  | vptr : Value → Value
  | vother : Value

/-- One struct field as seen by `reflect`: name, exportedness, storable tag,
value. -/
abbrev GoField := List Nat × Bool × List Nat × Value

/-- Field name bytes (`f.Name`). -/
def fieldName (f : GoField) : List Nat := f.1

/-- Whether the field is exported; `marshalStruct` never reads this. -/
def fieldExported (f : GoField) : Bool := f.2.1

/-- Raw bytes of `f.Tag.Get("storable")`. -/
def fieldTag (f : GoField) : List Nat := f.2.2.1

/-- The field value, `value.FieldByName(f.Name)`. -/
def fieldVal (f : GoField) : Value := f.2.2.2

/-- Models `reflect.Value.Len()`: defined for strings and slices/arrays
(returning the byte length resp. element count), a run-time panic (`none`)
for every other kind that the encoder can meet here. -/
def goLen : Value → Option Nat
  | .vstr s => some s.length
  | .vslice es => some es.length
  | _ => none

/-- ASCII bytes of the only recognized tag option, "omitempty". -/
def omitemptyBytes : List Nat := [111, 109, 105, 116, 101, 109, 112, 116, 121]

/-- Models `strings.Split(tag, ",")[0]`: the prefix of the tag before the
first comma (byte 44).  `strings.Split` never returns an empty list, so the
guard `len(fopts) > 0` of storable.go line 193 always holds and only this
first component matters. -/
def firstTagOption (tag : List Nat) : List Nat :=
  tag.takeWhile (fun c => c ≠ 44)

/-- Models `marshalBool` (storable.go lines 245-264): scalar tag, literal
length byte 1, then `strconv.FormatInt(1, 10)` or `strconv.FormatInt(0, 10)`. -/
def marshalBool (b : Bool) : List Nat :=
  SX_SCALAR :: 1 :: (if b then intDecimal 1 else intDecimal 0)

/-- Models `marshalString` (storable.go lines 266-283): scalar tag, then
`uint8(value.Len())` — the byte length of the string truncated mod 256 —
then the raw string bytes. -/
def marshalString (s : List Nat) : List Nat :=
  SX_SCALAR :: s.length % 256 :: s

/-- Models `marshalInt` (storable.go lines 285-301): scalar tag, `uint8(len(s))`,
then `s = strconv.FormatInt(value.Int(), 10)`. -/
def marshalInt (i : Int) : List Nat :=
  SX_SCALAR :: (intDecimal i).length % 256 :: intDecimal i

/-- Models `marshalUint` (storable.go lines 303-319): scalar tag, `uint8(len(s))`,
then `s = strconv.FormatUint(value.Uint(), 10)`. -/
def marshalUint (n : Nat) : List Nat :=
  SX_SCALAR :: (natDecimal n).length % 256 :: natDecimal n

/-- Models `marshalFloat` (storable.go lines 321-337): scalar tag, `uint8(len(s))`,
then `s = strconv.FormatFloat(value.Float(), 103, -1, bits)`; the value
carries that text. -/
def marshalFloat (t : List Nat) : List Nat :=
  SX_SCALAR :: t.length % 256 :: t

mutual

/-- Models `marshalValue` (storable.go lines 141-172): if the value is a
pointer it is dereferenced once and `SX_REF` is written, then the kind
switch runs on the (possibly dereferenced) value. -/
def marshalValue (v : Value) : Option (List Nat) :=
  match v with
  | .vptr p => (switchKind p).map (fun bs => SX_REF :: bs)
  | w => switchKind w
termination_by (sizeOf v, 1)

/-- Models the kind switch of `marshalValue` (storable.go lines 154-169).
A pointer reaching the switch (a pointer dereferenced to another pointer)
matches no case, as does `vother`: nothing is written, no error. -/
def switchKind (v : Value) : Option (List Nat) :=
  match v with
  | .vstruct fs => marshalStruct fs
  | .vslice es => marshalSlice es
  | .vbool b => some (marshalBool b)
  | .vstr s => some (marshalString s)
  | .vint i => some (marshalInt i)
  | .vuint n => some (marshalUint n)
  | .vfloat t => some (marshalFloat t)
  | .vptr _ => some []
  | .vother => some []
termination_by (sizeOf v, 0)

/-- Models `marshalStruct` (storable.go lines 174-219): write `SX_HASH`,
walk the fields into a side buffer while counting the surviving ones
(`marshalFields` below), then write `uint32(totalSize)` and the buffered
entry bytes. -/
def marshalStruct (fs : List GoField) : Option (List Nat) :=
  match marshalFields fs with
  | none => none
  | some (cnt, bs) => some (SX_HASH :: (u32be cnt ++ bs))
termination_by (sizeOf fs, 1)

/-- Models the field loop of `marshalStruct` (storable.go lines 188-209),
returning `totalSize` and the side buffer `e2`: for each field in
declaration order, if the first tag option is "omitempty" the field length
is consulted (`reflect.Value.Len`, a panic on kinds without length) and a
zero-length field is skipped; otherwise the count is incremented and the
field value bytes, then `uint32(len(f.Name))`, then the name bytes are
appended. -/
def marshalFields (fs : List GoField) : Option (Nat × List Nat) :=
  match fs with
  | [] => some (0, [])
  | (name, _ex, tag, val) :: rest =>
    if firstTagOption tag = omitemptyBytes then
      match goLen val with
      | none => none
      | some 0 => marshalFields rest
      | some (_ + 1) =>
        match marshalValue val with
        | none => none
        | some vb =>
          match marshalFields rest with
          | none => none
          | some (c, bs) => some (c + 1, (vb ++ u32be name.length ++ name) ++ bs)
    else
      match marshalValue val with
      | none => none
      | some vb =>
        match marshalFields rest with
        | none => none
        | some (c, bs) => some (c + 1, (vb ++ u32be name.length ++ name) ++ bs)
termination_by (sizeOf fs, 0)

/-- Models `marshalSlice` (storable.go lines 221-243): write `SX_ARRAY`,
then `uint32(value.Len())`, then each element in order. -/
def marshalSlice (es : List Value) : Option (List Nat) :=
  match marshalElems es with
  | none => none
  | some bs => some (SX_ARRAY :: (u32be es.length ++ bs))
termination_by (sizeOf es, 1)

/-- Models the element loop of `marshalSlice` (storable.go lines 235-240):
each element goes through `marshalValue`, outputs concatenated in order. -/
def marshalElems (es : List Value) : Option (List Nat) :=
  match es with
  | [] => some []
  | e :: rest =>
    match marshalValue e, marshalElems rest with
    | some b, some bs => some (b ++ bs)
    | _, _ => none
termination_by (sizeOf es, 0)

end

/-- Models `encodeState.marshal` (storable.go lines 118-139) run on a buffer
currently holding `buf`: `MAGIC` then `VERSION` are appended unconditionally,
then `marshalValue(reflect.ValueOf(v))`.  `none` as input models the untyped
nil interface: `reflect.ValueOf(nil)` is the zero `reflect.Value`, whose
`Type()` call inside `marshalValue` panics, so the call never returns. -/
def marshal (buf : List Nat) (i : Option Value) : Option (List Nat) :=
  match i with
  | none => none
  | some v =>
    match marshalValue v with
    | none => none
    | some bs => some (buf ++ MAGIC :: VERSION :: bs)

/-- Models the package function `Marshal` (storable.go lines 106-111): a fresh
(empty) `encodeState`, run `marshal`, return the accumulated bytes.  The
returned error is always nil; a panic is `none`. -/
def Marshal (i : Option Value) : Option (List Nat) := Storable.marshal [] i

/-- Models `enc.e.Reset()`: the internal buffer is emptied whatever it held. -/
def encodeStateReset (_buf : List Nat) : List Nat := []

/-- Models `Encoder.Encode` (storable.go lines 95-104): reset the internal
`encodeState`, run `marshal` on it, hand `enc.e.Bytes()` to `enc.w.Write`.
The sink is modelled as accepting the write (the claim under study assumes
a succeeding `Write`).  Result: `some (buffer contents, bytes written)`, or
`none` when `marshal` panicked. -/
def encoderEncode (ebuf : List Nat) (i : Option Value) :
    Option (List Nat × List Nat) :=
  match Storable.marshal (encodeStateReset ebuf) i with
  | none => none
  | some b => some (b, b)

/-- Specification-side view of the field filter of storable.go lines 192-195:
the sublist of fields that survive (are actually emitted), `none` when the
`Len` call of the omitempty check panics. -/
def keptFields (fs : List GoField) : Option (List GoField) :=
  match fs with
  | [] => some []
  | f :: rest =>
    if firstTagOption (fieldTag f) = omitemptyBytes then
      match goLen (fieldVal f) with
      | none => none
      | some 0 => keptFields rest
      | some (_ + 1) => (keptFields rest).map (fun ks => f :: ks)
    else (keptFields rest).map (fun ks => f :: ks)

/-- Specification-side view of one emitted hash entry: the field value bytes
first, then the four-byte big-endian name length, then the name bytes. -/
def entryBytes (f : GoField) : Option (List Nat) :=
  (marshalValue (fieldVal f)).map
    (fun vb => vb ++ u32be (fieldName f).length ++ fieldName f)

/-- Replaces the exported flag of a field, leaving name, tag and value. -/
def setExported (b : Bool) (f : GoField) : GoField :=
  (f.1, b, f.2.2.1, f.2.2.2)

/-- Whether a value is a pointer (indirection). -/
def Value.isPtr : Value → Bool
  | .vptr _ => true
  | _ => false

end Storable

namespace Storable

/-- The entry list of a cons, in the option monad. -/
theorem mapM_entryBytes_cons (f : GoField) (ks : List GoField) :
    (f :: ks).mapM entryBytes =
      (entryBytes f).bind (fun e => (ks.mapM entryBytes).map (fun es => e :: es)) := by
  rw [List.mapM_cons]
  cases h1 : entryBytes f <;> cases h2 : ks.mapM entryBytes <;>
    simp [h1, h2]

/-- Characterization of the field loop: when it returns, the count it
returns is the number of surviving fields and the bytes are exactly the
concatenated entries of those fields, in order. -/
theorem marshalFields_some (fs : List GoField) (cnt : Nat) (bs : List Nat)
    (h : marshalFields fs = some (cnt, bs)) :
    ∃ kept es, keptFields fs = some kept ∧ kept.mapM entryBytes = some es ∧
      cnt = kept.length ∧ bs = es.flatten := by
  induction fs generalizing cnt bs with
  | nil =>
    simp only [marshalFields, Option.some.injEq, Prod.mk.injEq] at h
    exact ⟨[], [], rfl, rfl, h.1.symm, h.2.symm⟩
  | cons f rest ih =>
    obtain ⟨nm, ex, tg, vl⟩ := f
    simp only [marshalFields] at h
    by_cases htag : firstTagOption tg = omitemptyBytes
    · rw [if_pos htag] at h
      cases hlen : goLen vl with
      | none => rw [hlen] at h; cases h
      | some k =>
        rw [hlen] at h
        cases k with
        | zero =>
          obtain ⟨kept, es, hk, hes, hc, hb⟩ := ih _ _ h
          refine ⟨kept, es, ?_, hes, hc, hb⟩
          simp [keptFields, fieldTag, fieldVal, htag, hlen, hk]
        | succ k' =>
          cases hmv : marshalValue vl with
          | none => rw [hmv] at h; cases h
          | some vb =>
            rw [hmv] at h
            cases hmf : marshalFields rest with
            | none => rw [hmf] at h; cases h
            | some p =>
              obtain ⟨c, bs'⟩ := p
              rw [hmf] at h
              obtain ⟨kept, es, hk, hes, hc, hb⟩ := ih _ _ hmf
              simp only [Option.some.injEq, Prod.mk.injEq] at h
              refine ⟨(nm, ex, tg, vl) :: kept,
                (vb ++ u32be nm.length ++ nm) :: es, ?_, ?_, ?_, ?_⟩
              · simp [keptFields, fieldTag, fieldVal, htag, hlen, hk]
              · rw [mapM_entryBytes_cons, hes]
                simp [entryBytes, fieldVal, fieldName, hmv]
              · simp [← h.1, hc]
              · simp [← h.2, hb]
    · rw [if_neg htag] at h
      cases hmv : marshalValue vl with
      | none => rw [hmv] at h; cases h
      | some vb =>
        rw [hmv] at h
        cases hmf : marshalFields rest with
        | none => rw [hmf] at h; cases h
        | some p =>
          obtain ⟨c, bs'⟩ := p
          rw [hmf] at h
          obtain ⟨kept, es, hk, hes, hc, hb⟩ := ih _ _ hmf
          simp only [Option.some.injEq, Prod.mk.injEq] at h
          refine ⟨(nm, ex, tg, vl) :: kept,
            (vb ++ u32be nm.length ++ nm) :: es, ?_, ?_, ?_, ?_⟩
          · simp [keptFields, fieldTag, fieldVal, htag, hk]
          · rw [mapM_entryBytes_cons, hes]
            simp [entryBytes, fieldVal, fieldName, hmv]
          · simp [← h.1, hc]
          · simp [← h.2, hb]


/-- Surviving fields are a sublist of the declared fields: the filter keeps
declaration order and invents nothing. -/
theorem keptFields_sublist (fs : List GoField) (kept : List GoField)
    (h : keptFields fs = some kept) : kept.Sublist fs := by
  induction fs generalizing kept with
  | nil =>
    simp only [keptFields, Option.some.injEq] at h
    exact h ▸ List.Sublist.refl []
  | cons f rest ih =>
    simp only [keptFields] at h
    by_cases htag : firstTagOption (fieldTag f) = omitemptyBytes
    · rw [if_pos htag] at h
      cases hlen : goLen (fieldVal f) with
      | none => rw [hlen] at h; cases h
      | some k =>
        rw [hlen] at h
        cases k with
        | zero => exact (ih _ h).cons f
        | succ k' =>
          cases hk : keptFields rest with
          | none => rw [hk] at h; cases h
          | some ks =>
            rw [hk] at h
            injection h with h
            exact h ▸ (ih _ hk).cons₂ f
    · rw [if_neg htag] at h
      cases hk : keptFields rest with
      | none => rw [hk] at h; cases h
      | some ks =>
        rw [hk] at h
        injection h with h
        exact h ▸ (ih _ hk).cons₂ f

/-- A successful entry traversal relates fields and entries pointwise, in
order. -/
theorem mapM_entryBytes_forall2 (ks : List GoField) (es : List (List Nat))
    (h : ks.mapM entryBytes = some es) :
    List.Forall₂ (fun f e => entryBytes f = some e) ks es := by
  induction ks generalizing es with
  | nil =>
    injection h with h
    exact h ▸ List.Forall₂.nil
  | cons f ks ih =>
    rw [mapM_entryBytes_cons] at h
    cases h1 : entryBytes f with
    | none => rw [h1] at h; cases h
    | some e =>
      rw [h1] at h
      cases h2 : ks.mapM entryBytes with
      | none => rw [h2] at h; cases h
      | some es2 =>
        rw [h2] at h
        injection h with h
        exact h ▸ List.Forall₂.cons h1 (ih _ h2)

/-- On a value that is not a pointer, `marshalValue` is exactly the kind
switch (no `SX_REF` prefix). -/
theorem marshalValue_not_ptr (v : Value) (hv : v.isPtr = false) :
    marshalValue v = switchKind v := by
  cases v with
  | vptr p => simp [Value.isPtr] at hv
  | vbool b => simp [marshalValue]
  | vint i => simp [marshalValue]
  | vuint n => simp [marshalValue]
  | vfloat t => simp [marshalValue]
  | vstr s => simp [marshalValue]
  | vslice es => simp [marshalValue]
  | vstruct fs => simp [marshalValue]
  | vother => simp [marshalValue]


/-- Claim C1: for every struct value encoded as a named aggregate, the
4-byte big-endian entry count written after the `SX_HASH` tag equals the
number of (value, key) entries actually emitted, computed only after field
filtering: the output is the hash tag, then the count of the surviving
fields, then exactly the concatenated entries of those surviving fields. -/
theorem claim1_entry_count_matches_emitted (fs : List GoField) (out : List Nat)
    (h : marshalStruct fs = some out) :
    ∃ kept es, keptFields fs = some kept ∧ kept.mapM entryBytes = some es ∧
      out = SX_HASH :: (u32be kept.length ++ es.flatten) := by
  simp only [marshalStruct] at h
  cases hmf : marshalFields fs with
  | none => rw [hmf] at h; cases h
  | some p =>
    obtain ⟨c, bs⟩ := p
    rw [hmf] at h
    injection h with h
    obtain ⟨kept, es, hk, hes, hc, hb⟩ := marshalFields_some fs c bs hmf
    exact ⟨kept, es, hk, hes, by rw [← h, hc, hb]⟩

/-- Witness for C1 at a concrete two-field struct (one field omitted). -/
theorem claim1_witness :
    ∃ kept es,
      keptFields [([78, 97, 109, 101], true, [], Value.vstr [75, 101, 118, 105, 110]),
        ([79, 109, 105, 116], true, omitemptyBytes, Value.vstr [])] = some kept ∧
      kept.mapM entryBytes = some es ∧
      [3, 0, 0, 0, 1, 10, 5, 75, 101, 118, 105, 110, 0, 0, 0, 4, 78, 97, 109, 101] =
        SX_HASH :: (u32be kept.length ++ es.flatten) :=
  claim1_entry_count_matches_emitted _ _ (by
    simp [marshalStruct, marshalFields, marshalValue, switchKind, marshalString,
      firstTagOption, omitemptyBytes, goLen, u32be]
    try decide)

/-- Claim C2: the named-aggregate entries are emitted in field declaration
order (the surviving fields are a sublist of the declared list), and each
entry is the encoded field value first, then the 4-byte big-endian name
length, then the raw name bytes: value-then-key. -/
theorem claim2_entries_in_order_value_then_key (fs : List GoField) (out : List Nat)
    (h : marshalStruct fs = some out) :
    ∃ kept es, keptFields fs = some kept ∧ kept.Sublist fs ∧
      List.Forall₂ (fun f e => ∃ vb, marshalValue (fieldVal f) = some vb ∧
        e = vb ++ u32be (fieldName f).length ++ fieldName f) kept es ∧
      out = SX_HASH :: (u32be kept.length ++ es.flatten) := by
  simp only [marshalStruct] at h
  cases hmf : marshalFields fs with
  | none => rw [hmf] at h; cases h
  | some p =>
    obtain ⟨c, bs⟩ := p
    rw [hmf] at h
    injection h with h
    obtain ⟨kept, es, hk, hes, hc, hb⟩ := marshalFields_some fs c bs hmf
    refine ⟨kept, es, hk, keptFields_sublist fs kept hk, ?_, by rw [← h, hc, hb]⟩
    refine (mapM_entryBytes_forall2 kept es hes).imp ?_
    intro f e hfe
    simp only [entryBytes] at hfe
    cases hmv : marshalValue (fieldVal f) with
    | none => rw [hmv] at hfe; cases hfe
    | some vb =>
      rw [hmv] at hfe
      injection hfe with hfe
      exact ⟨vb, rfl, hfe.symm⟩

/-- Witness for C2 at a concrete one-field struct. -/
theorem claim2_witness :
    ∃ kept es,
      keptFields [([78, 97, 109, 101], true, [], Value.vstr [75, 101, 118, 105, 110])] =
        some kept ∧
      kept.Sublist [([78, 97, 109, 101], true, [], Value.vstr [75, 101, 118, 105, 110])] ∧
      List.Forall₂ (fun f e => ∃ vb, marshalValue (fieldVal f) = some vb ∧
        e = vb ++ u32be (fieldName f).length ++ fieldName f) kept es ∧
      [3, 0, 0, 0, 1, 10, 5, 75, 101, 118, 105, 110, 0, 0, 0, 4, 78, 97, 109, 101] =
        SX_HASH :: (u32be kept.length ++ es.flatten) :=
  claim2_entries_in_order_value_then_key _ _ (by
    simp [marshalStruct, marshalFields, marshalValue, switchKind, marshalString,
      firstTagOption, omitemptyBytes, goLen, u32be]
    try decide)

/-- Claim C3: a field whose first tag option is "omitempty" and whose length
is zero is skipped entirely: the struct encodes exactly as if the field were
absent, so the field adds nothing to the entry count and no bytes of its
name or value appear anywhere in the output, while all other fields are
encoded normally. -/
theorem claim3_omitempty_zero_len_field_skipped (pre post : List GoField)
    (f : GoField)
    (htag : firstTagOption (fieldTag f) = omitemptyBytes)
    (hlen : goLen (fieldVal f) = some 0) :
    marshalStruct (pre ++ f :: post) = marshalStruct (pre ++ post) := by
  have key : ∀ pre2 : List GoField,
      marshalFields (pre2 ++ f :: post) = marshalFields (pre2 ++ post) := by
    intro pre2
    induction pre2 with
    | nil =>
      obtain ⟨nm, ex, tg, vl⟩ := f
      simp only [fieldTag] at htag
      simp only [fieldVal] at hlen
      simp only [List.nil_append, marshalFields]
      rw [if_pos htag, hlen]
    | cons g rest ih =>
      obtain ⟨nm, ex, tg, vl⟩ := g
      simp only [List.cons_append, marshalFields]
      rw [ih]
  simp only [marshalStruct]
  rw [key pre]

/-- Witness for C3: the omitted field disappears from a concrete struct. -/
theorem claim3_witness :
    marshalStruct [([78, 97, 109, 101], true, [], Value.vstr [75, 101, 118, 105, 110]),
        ([79, 109, 105, 116], true, omitemptyBytes, Value.vstr [])] =
      marshalStruct [([78, 97, 109, 101], true, [], Value.vstr [75, 101, 118, 105, 110])] :=
  claim3_omitempty_zero_len_field_skipped
    [([78, 97, 109, 101], true, [], Value.vstr [75, 101, 118, 105, 110])] []
    ([79, 109, 105, 116], true, omitemptyBytes, Value.vstr []) (by decide) rfl


/-- Counterexample to claim C4 (the claim that unexported fields are
excluded entirely).  The struct of storable_test.go lines 34-36 has a single
unexported field named "nested" (exported flag false); the encoder still
walks it: the output has entry count 1 and contains the name bytes and the
value bytes of that field, where the claim predicts count 0 and no bytes,
i.e. output [3, 0, 0, 0, 0]. -/
theorem claim4_counterexample :
    marshalStruct [([110, 101, 115, 116, 101, 100], false, [],
        Value.vptr (Value.vstruct
          [([78, 97, 109, 101], true, [], Value.vstr [75, 101, 118, 105, 110])]))] =
      some [3, 0, 0, 0, 1,
        4, 3, 0, 0, 0, 1, 10, 5, 75, 101, 118, 105, 110, 0, 0, 0, 4, 78, 97, 109, 101,
        0, 0, 0, 6, 110, 101, 115, 116, 101, 100] ∧
    ([3, 0, 0, 0, 1,
        4, 3, 0, 0, 0, 1, 10, 5, 75, 101, 118, 105, 110, 0, 0, 0, 4, 78, 97, 109, 101,
        0, 0, 0, 6, 110, 101, 115, 116, 101, 100] : List Nat) ≠ [3, 0, 0, 0, 0] := by
  constructor
  · simp [marshalStruct, marshalFields, marshalValue, switchKind, marshalString,
      firstTagOption, omitemptyBytes, goLen, u32be]
    try decide
  · decide

/-- Claim C4 amended: unexported fields are not excluded; the field walk
never consults exportedness, so every declared field, exported or not, is
tag-checked and emitted exactly the same way.  Formally the struct encoding
is invariant under overwriting all exported flags. -/
theorem claim4_exported_flag_never_consulted (b : Bool) (fs : List GoField) :
    marshalStruct (fs.map (setExported b)) = marshalStruct fs := by
  have key : ∀ gs : List GoField,
      marshalFields (gs.map (setExported b)) = marshalFields gs := by
    intro gs
    induction gs with
    | nil => rfl
    | cons g rest ih =>
      obtain ⟨nm, ex, tg, vl⟩ := g
      simp only [List.map_cons, setExported, marshalFields]
      rw [ih]
  simp only [marshalStruct]
  rw [key fs]

/-- Element traversal of a cons, in the option monad. -/
theorem mapM_marshalValue_cons (v : Value) (vs : List Value) :
    (v :: vs).mapM marshalValue =
      (marshalValue v).bind
        (fun b => (vs.mapM marshalValue).map (fun bs => b :: bs)) := by
  rw [List.mapM_cons]
  cases h1 : marshalValue v <;> cases h2 : vs.mapM marshalValue <;> simp [h1, h2]

/-- The element loop is the concatenation of the per-element encodings. -/
theorem marshalElems_eq_flatten (es : List Value) (parts : List (List Nat))
    (h : es.mapM marshalValue = some parts) :
    marshalElems es = some parts.flatten := by
  induction es generalizing parts with
  | nil =>
    injection h with h
    rw [← h]
    simp [marshalElems]
  | cons e rest ih =>
    rw [mapM_marshalValue_cons] at h
    cases h1 : marshalValue e with
    | none => rw [h1] at h; cases h
    | some b =>
      rw [h1] at h
      cases h3 : rest.mapM marshalValue with
      | none => rw [h3] at h; cases h
      | some ps =>
        rw [h3] at h
        injection h with h
        subst h
        simp only [marshalElems]
        rw [h1, ih _ h3]
        rfl

/-- Claim C5: a slice or array of length n encodes as the `SX_ARRAY` tag,
a 4-byte big-endian count equal to n, then each element encoding in source
order with no per-element names; the empty slice is legal and gives tag,
zero count and no element bytes. -/
theorem claim5_slice_tag_count_elements (es : List Value) (parts : List (List Nat))
    (h : es.mapM marshalValue = some parts) :
    marshalSlice es = some (SX_ARRAY :: (u32be es.length ++ parts.flatten)) := by
  simp only [marshalSlice]
  rw [marshalElems_eq_flatten es parts h]

/-- Witness for C5 at the empty slice: tag, zero count, no elements. -/
theorem claim5_witness : marshalSlice [] = some [2, 0, 0, 0, 0] :=
  claim5_slice_tag_count_elements [] [] rfl


/-- Counterexample to claim C6 as stated: the claim says the string length
byte equals the byte length capped implicitly at 255.  For a 256-byte
string the code writes `uint8(256) = 0` as the length byte — it wraps mod
256, it is not capped at 255. -/
theorem claim6_counterexample :
    marshalString (List.replicate 256 97) = 10 :: 0 :: List.replicate 256 97 ∧
    (0 : Nat) ≠ 255 := by
  refine ⟨?_, by decide⟩
  simp only [marshalString, List.length_replicate, SX_SCALAR]

/-- Claim C6 amended: every scalar is the `SX_SCALAR` tag, a 1-byte length,
then exactly that many bytes of text — "1"/"0" for booleans with literal
length byte 1; raw string bytes with length byte equal to the byte length
for strings up to 255 bytes and the byte length reduced mod 256 (wrapping,
not capping) beyond; canonical base-10 for integers with a minus sign only
when negative; the `strconv.FormatFloat` general-notation text for floats.
The `SX_UTF8STR` tag is never the scalar tag. -/
theorem claim6_scalar_wire_shape :
    (∀ b, marshalBool b = [SX_SCALAR, 1, if b then 49 else 48]) ∧
    (∀ s : List Nat, s.length ≤ 255 → marshalString s = SX_SCALAR :: s.length :: s) ∧
    (∀ s : List Nat, marshalString s = SX_SCALAR :: s.length % 256 :: s) ∧
    (∀ i : Int, marshalInt i = SX_SCALAR :: (intDecimal i).length % 256 :: intDecimal i) ∧
    (∀ i : Int, 0 ≤ i → intDecimal i = natDecimal i.toNat) ∧
    (∀ i : Int, i < 0 → intDecimal i = 45 :: natDecimal i.natAbs) ∧
    (∀ n : Nat, marshalUint n = SX_SCALAR :: (natDecimal n).length % 256 :: natDecimal n) ∧
    (∀ t : List Nat, marshalFloat t = SX_SCALAR :: t.length % 256 :: t) ∧
    SX_SCALAR ≠ SX_UTF8STR := by
  refine ⟨?_, ?_, ?_, ?_, ?_, ?_, ?_, ?_, ?_⟩
  · intro b; cases b <;> rfl
  · intro s hs
    simp [marshalString, Nat.mod_eq_of_lt (Nat.lt_succ_of_le hs)]
  · intro s; rfl
  · intro i; rfl
  · intro i hi; simp [intDecimal, not_lt.mpr hi]
  · intro i hi; simp [intDecimal, hi]
  · intro n; rfl
  · intro t; rfl
  · decide

/-- Witness for C6 at the 5-byte string "Kevin": length byte 5. -/
theorem claim6_witness :
    marshalString [75, 101, 118, 105, 110] = [10, 5, 75, 101, 118, 105, 110] :=
  claim6_scalar_wire_shape.2.1 [75, 101, 118, 105, 110] (by decide)

/-- Counterexample to claim C7 as stated: a pointer to a pointer.  The
pointee (itself a pointer) encodes successfully on its own, but the outer
encoding is just one `SX_REF` with nothing after it — after the single
dereference the dispatch switch has no pointer case — not `SX_REF`
followed by the pointee encoding. -/
theorem claim7_counterexample :
    Marshal (some (Value.vptr (Value.vptr (Value.vint 5)))) = some [5, 7, 4] ∧
    Marshal (some (Value.vptr (Value.vint 5))) = some [5, 7, 4, 10, 1, 53] ∧
    ([5, 7, 4] : List Nat) ≠ [5, 7] ++ 4 :: [4, 10, 1, 53] := by
  refine ⟨?_, ?_, by decide⟩
  · simp [Marshal, marshal, marshalValue, switchKind, MAGIC, VERSION]
    try decide
  · simp [Marshal, marshal, marshalValue, switchKind, MAGIC, VERSION]
    try decide

/-- Claim C7 amended: for a pointer whose pointee is not itself a pointer
and whose encoding succeeds, the output after the 2-byte header is the
`SX_REF` tag followed byte-for-byte by the pointee direct encoding with its
own 2-byte header removed.  (For a pointer to a pointer only a single
`SX_REF` is emitted and nothing follows.) -/
theorem claim7_single_indirection (v : Value) (rest : List Nat)
    (hv : v.isPtr = false)
    (h : Marshal (some v) = some (MAGIC :: VERSION :: rest)) :
    Marshal (some (Value.vptr v)) = some (MAGIC :: VERSION :: SX_REF :: rest) := by
  simp only [Marshal, marshal] at h ⊢
  cases hmv : marshalValue v with
  | none => rw [hmv] at h; cases h
  | some bs =>
    rw [hmv] at h
    injection h with h
    have hbs : bs = rest := by simpa using h
    subst hbs
    have hsv : switchKind v = some bs := by
      rw [← marshalValue_not_ptr v hv]; exact hmv
    have hmpv : marshalValue (Value.vptr v) = some (SX_REF :: bs) := by
      simp only [marshalValue]
      rw [hsv]
      rfl
    rw [hmpv]
    rfl

/-- Witness for C7 at a pointer to the integer 5. -/
theorem claim7_witness :
    Marshal (some (Value.vptr (Value.vint 5))) = some [5, 7, 4, 10, 1, 53] :=
  claim7_single_indirection (Value.vint 5) [10, 1, 53] rfl (by
    simp [Marshal, marshal, marshalValue, switchKind, MAGIC, VERSION]
    try decide)

/-- Claim C8: for every (typed) input value, the output is exactly the magic
byte 5 and version byte 7, written once, followed by the headerless tagged
encoding of the value; and the header never reappears in front of a nested
value — every nonempty tagged-value encoding starts with one of the tags
2, 3, 4 or 10, never with the magic byte 5. -/
theorem claim8_header_once :
    (∀ v out, Marshal (some v) = some out →
      ∃ rest, out = MAGIC :: VERSION :: rest ∧ marshalValue v = some rest) ∧
    (∀ v bs, marshalValue v = some bs →
      bs = [] ∨ ∃ t rest, bs = t :: rest ∧
        (t = SX_ARRAY ∨ t = SX_HASH ∨ t = SX_REF ∨ t = SX_SCALAR)) := by
  constructor
  · intro v out h
    simp only [Marshal, marshal] at h
    cases hmv : marshalValue v with
    | none => rw [hmv] at h; cases h
    | some bs =>
      rw [hmv] at h
      injection h with h
      exact ⟨bs, by simpa using h.symm, rfl⟩
  · intro v bs h
    cases v with
    | vptr p =>
      simp only [marshalValue] at h
      cases hsk : switchKind p with
      | none => rw [hsk] at h; cases h
      | some inner =>
        rw [hsk] at h
        injection h with h
        exact Or.inr ⟨SX_REF, inner, h.symm, Or.inr (Or.inr (Or.inl rfl))⟩
    | vstruct fs =>
      rw [marshalValue_not_ptr (Value.vstruct fs) rfl] at h
      simp only [switchKind, marshalStruct] at h
      cases hmf : marshalFields fs with
      | none => rw [hmf] at h; cases h
      | some p2 =>
        obtain ⟨c, ebs⟩ := p2
        rw [hmf] at h
        injection h with h
        exact Or.inr ⟨SX_HASH, u32be c ++ ebs, h.symm, Or.inr (Or.inl rfl)⟩
    | vslice es =>
      rw [marshalValue_not_ptr (Value.vslice es) rfl] at h
      simp only [switchKind, marshalSlice] at h
      cases hme : marshalElems es with
      | none => rw [hme] at h; cases h
      | some ebs =>
        rw [hme] at h
        injection h with h
        exact Or.inr ⟨SX_ARRAY, u32be es.length ++ ebs, h.symm, Or.inl rfl⟩
    | vbool b =>
      rw [marshalValue_not_ptr (Value.vbool b) rfl] at h
      simp only [switchKind] at h
      injection h with h
      exact Or.inr ⟨SX_SCALAR, 1 :: (if b then intDecimal 1 else intDecimal 0),
        by rw [← h]; rfl, Or.inr (Or.inr (Or.inr rfl))⟩
    | vstr s =>
      rw [marshalValue_not_ptr (Value.vstr s) rfl] at h
      simp only [switchKind] at h
      injection h with h
      exact Or.inr ⟨SX_SCALAR, s.length % 256 :: s,
        by rw [← h]; rfl, Or.inr (Or.inr (Or.inr rfl))⟩
    | vint i =>
      rw [marshalValue_not_ptr (Value.vint i) rfl] at h
      simp only [switchKind] at h
      injection h with h
      exact Or.inr ⟨SX_SCALAR, (intDecimal i).length % 256 :: intDecimal i,
        by rw [← h]; rfl, Or.inr (Or.inr (Or.inr rfl))⟩
    | vuint n =>
      rw [marshalValue_not_ptr (Value.vuint n) rfl] at h
      simp only [switchKind] at h
      injection h with h
      exact Or.inr ⟨SX_SCALAR, (natDecimal n).length % 256 :: natDecimal n,
        by rw [← h]; rfl, Or.inr (Or.inr (Or.inr rfl))⟩
    | vfloat t =>
      rw [marshalValue_not_ptr (Value.vfloat t) rfl] at h
      simp only [switchKind] at h
      injection h with h
      exact Or.inr ⟨SX_SCALAR, t.length % 256 :: t,
        by rw [← h]; rfl, Or.inr (Or.inr (Or.inr rfl))⟩
    | vother =>
      rw [marshalValue_not_ptr Value.vother rfl] at h
      simp only [switchKind] at h
      injection h with h
      exact Or.inl h.symm

/-- Witness for C8 at the boolean true. -/
theorem claim8_witness :
    ∃ rest, ([5, 7, 10, 1, 49] : List Nat) = MAGIC :: VERSION :: rest ∧
      marshalValue (Value.vbool true) = some rest :=
  claim8_header_once.1 (Value.vbool true) [5, 7, 10, 1, 49] (by
    simp [Marshal, marshal, marshalValue, switchKind, MAGIC, VERSION]
    try decide)

/-- Counterexample to claim C9 as stated: the claim lists nil among the
silently-skipped shapes that raise no error.  On the untyped nil input
`reflect.ValueOf(nil)` is the zero `reflect.Value` and `value.Type()`
panics inside `marshalValue`, so `Marshal` never returns — in particular it
does not return the bare header that a silent skip would produce. -/
theorem claim9_counterexample :
    Marshal none = none ∧ (none : Option (List Nat)) ≠ some [MAGIC, VERSION] := by
  exact ⟨rfl, by decide⟩

/-- Claim C9 amended: a value or nested sub-value of a kind outside the four
recognized kinds, other than untyped nil — map, function, channel, ...,
modelled by `vother` — is silently skipped: no bytes are written for it, no
error is raised, and encoding of the surrounding value continues (a struct
field of such a kind still has its key written and counted; a slice
continues with its remaining elements).  Untyped nil is the exception: it
panics instead of being skipped. -/
theorem claim9_unsupported_skipped :
    marshalValue Value.vother = some [] ∧
    (∀ (nm : List Nat) (ex : Bool) (rest : List GoField),
      marshalFields ((nm, ex, ([] : List Nat), Value.vother) :: rest) =
        (marshalFields rest).map
          (fun p => (p.1 + 1, (u32be nm.length ++ nm) ++ p.2))) ∧
    (∀ rest : List Value, marshalElems (Value.vother :: rest) = marshalElems rest) ∧
    Marshal none = none := by
  have hmv : marshalValue Value.vother = some [] := by
    simp [marshalValue, switchKind]
  refine ⟨hmv, ?_, ?_, rfl⟩
  · intro nm ex rest
    simp only [marshalFields]
    rw [if_neg (by decide), hmv]
    cases hmf : marshalFields rest with
    | none => rfl
    | some p =>
      obtain ⟨c, bs⟩ := p
      rfl
  · intro rest
    simp only [marshalElems]
    rw [hmv]
    cases hme : marshalElems rest with
    | none => rfl
    | some bs => rfl

/-- Claim C10: for every input and a sink whose write succeeds,
`Encoder.Encode` hands the sink exactly the byte sequence `Marshal` returns
for the same value, and the result is independent of the prior contents of
the internal buffer, which is reset at the start of every call. -/
theorem claim10_encode_writes_marshal_bytes :
    (∀ (ebuf : List Nat) (i : Option Value) (st written : List Nat),
      encoderEncode ebuf i = some (st, written) → Marshal i = some written) ∧
    (∀ (ebuf1 ebuf2 : List Nat) (i : Option Value),
      encoderEncode ebuf1 i = encoderEncode ebuf2 i) := by
  constructor
  · intro ebuf i st written h
    simp only [encoderEncode, encodeStateReset] at h
    cases hm : Storable.marshal [] i with
    | none => rw [hm] at h; cases h
    | some b =>
      rw [hm] at h
      injection h with h
      injection h with h1 h2
      subst h1
      subst h2
      simp only [Marshal]
      exact hm
  · intro e1 e2 i
    rfl

/-- Witness for C10: a dirty prior buffer does not leak into the bytes
written for the boolean false. -/
theorem claim10_witness :
    Marshal (some (Value.vbool false)) = some [5, 7, 10, 1, 48] :=
  claim10_encode_writes_marshal_bytes.1 [9, 9, 9] (some (Value.vbool false))
    [5, 7, 10, 1, 48] [5, 7, 10, 1, 48] (by
      simp [encoderEncode, encodeStateReset, marshal, marshalValue, switchKind,
        MAGIC, VERSION]
      try decide)

end Storable
